import Mathlib

/-!
# Stop-and-wait ARQ simulator: a shallow embedding

This file embeds the protocol engine of the sender (`tx.py`) and the
receiver (`rx.py`) of the stop-and-wait ARQ simulator as executable Lean
functions, and proves the specified properties about them.

Modelling conventions:
* a byte is a `Nat` (well-formed bytes are `< 256`; Python byte strings
  only ever hold such values);
* a datagram is a `List Nat`;
* the pseudo-random draws of `random.random()` are rationals in `[0, 1)`
  supplied by the environment; a draw `q` causes a simulated loss exactly
  when `q < lossProb`, mirroring `random.random() < LOSS_PROB`;
* blocking reception with a socket timeout is modelled by a list of
  inbound events, each tagged with the waiting time (ms) that elapses
  between the start of the enclosing `recvfrom` call and the datagram
  becoming available; the list ending models silence until the timeout.
-/

/-- Wire size of a data packet (`DATA_PCK_LEN` in `tx.py`/`rx.py`). -/
def DATA_PCK_LEN : Nat := 32

/-- Payload size of a data packet (`DATA_BYTES`). -/
def DATA_BYTES : Nat := 31

/-- Wire size of an acknowledgment (`ACK_LEN`). -/
def ACK_LEN : Nat := 2

/-- `tx.make_packet`: checks that the payload is exactly 31 bytes (otherwise
Python raises `ValueError`, modelled by `Except.error`) and prepends the
sequence-number byte `pck_num & 0xFF`.  Python's `&` on a (possibly
negative) `int` agrees with `Int.emod` for the positive modulus 256. -/
def make_packet (pck_num : Int) (data : List Nat) : Except String (List Nat) :=
  if data.length ≠ DATA_BYTES then Except.error "Data must be exactly 31 bytes"
  else Except.ok ((pck_num % 256).toNat :: data)

/-- `struct.pack("<I", n)`: the 4-byte little-endian encoding of `n`.
`struct.pack` itself raises for `n ≥ 2^32`; theorems about it carry that
bound as a hypothesis. -/
def structPackLE32 (n : Nat) : List Nat :=
  [n % 256, n / 256 % 256, n / 65536 % 256, n / 16777216 % 256]

/-- `bytes.ljust(width, b"\x00")`: pad on the right with zero bytes up to
`width`. -/
def ljust (l : List Nat) (width : Nat) : List Nat :=
  l ++ List.replicate (width - l.length) 0

/-- The `while offset < total_len` loop of `tx.data_for_file`: yield the
31-byte zero-padded slices of `data_r` starting at `offset`, stepping by
31. -/
def data_for_file_rest (data_r : List Nat) (offset : Nat) : List (List Nat) :=
  if h : offset < data_r.length then
    ljust ((data_r.drop offset).take 31) 31 :: data_for_file_rest data_r (offset + 31)
  else
    []
termination_by data_r.length - offset
decreasing_by omega

/-- `tx.data_for_file`, with the file contents `data_r` passed directly:
first chunk is the 4-byte little-endian total length followed by the first
27 bytes, padded to 31; the remaining chunks are the successive 31-byte
slices from offset 27, each padded to 31. -/
def data_for_file (data_r : List Nat) : List (List Nat) :=
  ljust (structPackLE32 data_r.length ++ data_r.take 27) 31 ::
    data_for_file_rest data_r 27

theorem data_for_file_rest_length (d : List Nat) (off : Nat) :
    (data_for_file_rest d off).length = (d.length - off + 30) / 31 := by
  rw [data_for_file_rest]
  split
  · rw [List.length_cons, data_for_file_rest_length d (off + 31)]
    omega
  · simp only [List.length_nil]
    omega
termination_by d.length - off
decreasing_by omega

theorem data_for_file_rest_get (d : List Nat) (k : Nat) : ∀ off : Nat,
    (data_for_file_rest d off)[k]? =
      if off + 31 * k < d.length
      then some (ljust ((d.drop (off + 31 * k)).take 31) 31)
      else none := by
  induction k with
  | zero =>
    intro off
    rw [data_for_file_rest]
    split
    · rename_i h
      rw [List.getElem?_cons_zero, if_pos (by omega)]
      norm_num
    · rename_i h
      rw [List.getElem?_nil, if_neg (by omega)]
  | succ k ih =>
    intro off
    rw [data_for_file_rest]
    split
    · rename_i hlt
      simp only [List.getElem?_cons_succ]
      rw [ih (off + 31)]
      have harith : off + 31 + 31 * k = off + 31 * (k + 1) := by ring
      rw [harith]
    · rename_i hge
      simp only [List.getElem?_nil]
      rw [if_neg]
      omega

/-- Claim C1: for a stream of `N` bytes (with `N < 2^32`, the domain of
`struct.pack("<I", ·)`), `data_for_file` yields `1` chunk when `N ≤ 27` and
`1 + ceil((N-27)/31)` chunks otherwise (exactly one chunk when `N = 0`);
chunk 0 is the 4-byte little-endian encoding of `N` followed by the first
`min(27, N)` stream bytes zero-padded to 31 bytes, and chunk `k+1` holds
the stream bytes at offset `27 + 31*k` (up to 31 of them) zero-padded to
31 bytes. -/
theorem data_for_file_spec (d : List Nat) (hN : d.length < 4294967296) :
    (data_for_file d).length = (if d.length ≤ 27 then 1 else 1 + (d.length - 27 + 30) / 31)
    ∧ (data_for_file d)[0]? =
        some (structPackLE32 d.length ++ d.take 27 ++ List.replicate (27 - d.length) 0)
    ∧ ∀ k : Nat, (data_for_file d)[k + 1]? =
        if 27 + 31 * k < d.length
        then some ((d.drop (27 + 31 * k)).take 31 ++
              List.replicate (31 - (d.length - (27 + 31 * k))) 0)
        else none := by
  refine ⟨?_, ?_, ?_⟩
  · rw [data_for_file, List.length_cons, data_for_file_rest_length]
    split <;> omega
  · rw [data_for_file, List.getElem?_cons_zero, ljust]
    have hc : 31 - (structPackLE32 d.length ++ d.take 27).length = 27 - d.length := by
      simp [structPackLE32]
      omega
    rw [hc, List.append_assoc]
  · intro k
    rw [data_for_file, List.getElem?_cons_succ, data_for_file_rest_get]
    split
    · rename_i h
      have hc : 31 - ((d.drop (27 + 31 * k)).take 31).length =
          31 - (d.length - (27 + 31 * k)) := by
        simp [List.length_take, List.length_drop]
        omega
      rw [ljust, hc]
    · rfl

theorem data_for_file_spec_witness :
    (data_for_file [1, 2, 3]).length = 1
    ∧ (data_for_file [1, 2, 3])[1]? = none := by
  have h := data_for_file_spec [1, 2, 3] (by norm_num)
  exact ⟨h.1.trans (by norm_num), (h.2.2 0).trans (by norm_num)⟩

/-- Claim C10: `make_packet` raises `ValueError` exactly when the payload is
not 31 bytes long; for every 31-byte payload and every integer sequence
number it returns a 32-byte packet whose first byte is the sequence number
reduced modulo 256, followed by the payload unchanged. -/
theorem make_packet_spec (n : Int) (data : List Nat) :
    (data.length ≠ 31 → make_packet n data = Except.error "Data must be exactly 31 bytes")
    ∧ (data.length = 31 → ∃ b : Nat,
        make_packet n data = Except.ok (b :: data)
        ∧ (b : Int) = n % 256 ∧ b < 256 ∧ (b :: data).length = 32) := by
  constructor
  · intro h
    simp [make_packet, DATA_BYTES, h]
  · intro h
    refine ⟨(n % 256).toNat, ?_, ?_, ?_, ?_⟩
    · simp [make_packet, DATA_BYTES, h]
    · rw [Int.toNat_of_nonneg (Int.emod_nonneg n (by norm_num))]
    · have h2 : n % 256 < 256 := Int.emod_lt_of_pos n (by norm_num)
      have h3 : 0 ≤ n % 256 := Int.emod_nonneg n (by norm_num)
      omega
    · simp [h]

theorem make_packet_spec_witness :
    make_packet 300 [] = Except.error "Data must be exactly 31 bytes"
    ∧ ∃ b : Nat, make_packet 300 (List.replicate 31 7) = Except.ok (b :: List.replicate 31 7)
        ∧ (b : Int) = 300 % 256 ∧ b < 256 ∧ (b :: List.replicate 31 7).length = 32 :=
  ⟨(make_packet_spec 300 []).1 (by decide),
   (make_packet_spec 300 (List.replicate 31 7)).2 (by decide)⟩

/-- One inbound event during a wait: the waiting time (ms) from the start
of the enclosing `recvfrom` call until the datagram becomes available,
paired with the datagram. -/
abbrev AckEvent := Nat × List Nat

/-- `tx.wait_for_ack`, with time made explicit.  The socket timeout set by
`ack_sock.settimeout` applies to each individual `recvfrom` call, so every
consumed datagram starts a fresh timeout window.  Returns the status byte
of the first 2-byte acknowledgment whose echoed sequence number equals
`expected & 0xFF` (acknowledgments of any other length, and 2-byte
acknowledgments with a different sequence number, are skipped), or `none`
when a `recvfrom` times out first; the second component is the total time
(ms) spent inside the call. -/
def wait_for_ack (timeout expected : Nat) : List AckEvent → Option Nat × Nat
  | [] => (none, timeout)
  | (w, a) :: rest =>
    if timeout ≤ w then (none, timeout)
    else
      match a with
      | [p, s] =>
        if p = expected % 256 then (some s, w)
        else
          let r := wait_for_ack timeout expected rest
          (r.1, w + r.2)
      | _ =>
        let r := wait_for_ack timeout expected rest
        (r.1, w + r.2)

/-- Environment of one send attempt: the `random.random()` draw deciding
the simulated loss of the data send, and the inbound acknowledgment
events available while waiting for the acknowledgment. -/
structure AttemptEnv where
  draw : ℚ
  acks : List AckEvent

/-- `tx.send_with_retries`: one list entry per permitted attempt (the
`for attempt in range(1, MAX_RETRIES + 1)` loop, so the list length plays
the role of `MAX_RETRIES`).  Returns (success flag, number of attempts
performed, packets actually handed to `sendto`). -/
def send_with_retries (lossProb : ℚ) (timeout pckNum : Nat) (pck : List Nat) :
    List AttemptEnv → Bool × Nat × List (List Nat)
  | [] => (false, 0, [])
  | e :: rest =>
    let sent : List (List Nat) := if e.draw < lossProb then [] else [pck]
    match (wait_for_ack timeout pckNum e.acks).1 with
    | none =>
      let r := send_with_retries lossProb timeout pckNum pck rest
      (r.1, r.2.1 + 1, sent ++ r.2.2)
    | some s =>
      if s = 0 ∨ s = 1 then (true, 1, sent)
      else
        let r := send_with_retries lossProb timeout pckNum pck rest
        (r.1, r.2.1 + 1, sent ++ r.2.2)

/-- Observable outcome of the sender main loop. -/
structure TxResult where
  sent_chunks : Nat
  success_chunks : Nat
  transmitted : List (Nat × List Nat)
  attempted_seqs : List Nat
  attempts : List Nat
deriving Repr, DecidableEq

/-- The `for data_chunk in data_for_file(...)` loop of `tx.main`.
`cenv idx` supplies the attempt environments for the chunk at position
`idx`; `pckNum` is the alternating sequence bit (`pck_num ^= 1` on
success); a `none` result models an uncaught `ValueError` escaping from
`make_packet`.  `transmitted` records, in order, the sequence number and
bytes of every packet actually handed to `sendto`; `attempted_seqs`
records the sequence number used for each chunk that was attempted. -/
def tx_loop (lossProb : ℚ) (timeout : Nat) (cenv : Nat → List AttemptEnv) :
    List (List Nat) → Nat → Nat → Option TxResult
  | [], _, _ => some ⟨0, 0, [], [], []⟩
  | c :: rest, pckNum, idx =>
    match make_packet (pckNum : Int) c with
    | Except.error _ => none
    | Except.ok pck =>
      let r := send_with_retries lossProb timeout pckNum pck (cenv idx)
      if r.1 then
        match tx_loop lossProb timeout cenv rest (pckNum ^^^ 1) (idx + 1) with
        | none => none
        | some t =>
          some ⟨t.sent_chunks + 1, t.success_chunks + 1,
                r.2.2.map (fun q => (pckNum, q)) ++ t.transmitted,
                pckNum :: t.attempted_seqs, r.2.1 :: t.attempts⟩
      else
        some ⟨1, 0, r.2.2.map (fun q => (pckNum, q)), [pckNum], [r.2.1]⟩

/-- `tx.main` after configuration: the sequence number starts at 0 and the
first chunk is chunk number 0. -/
def tx_main (lossProb : ℚ) (timeout : Nat) (cenv : Nat → List AttemptEnv)
    (chunks : List (List Nat)) : Option TxResult :=
  tx_loop lossProb timeout cenv chunks 0 0

theorem send_with_retries_all_lost (lossProb : ℚ) (timeout pckNum : Nat)
    (pck : List Nat) (envs : List AttemptEnv) (hp : lossProb = 1)
    (hd : ∀ e ∈ envs, e.draw < 1) (ha : ∀ e ∈ envs, e.acks = []) :
    send_with_retries lossProb timeout pckNum pck envs = (false, envs.length, []) := by
  induction envs with
  | nil => rfl
  | cons e rest ih =>
    have hae : e.acks = [] := ha e (by simp)
    have hde : e.draw < lossProb := by rw [hp]; exact hd e (by simp)
    have hwait : (wait_for_ack timeout pckNum e.acks).1 = none := by
      rw [hae, wait_for_ack]
    rw [send_with_retries, hwait]
    simp only [if_pos hde, List.nil_append]
    rw [ih (fun x hx => hd x (List.mem_cons_of_mem e hx))
        (fun x hx => ha x (List.mem_cons_of_mem e hx))]
    simp

/-- Claim C2: when the data-direction loss probability is forced to 1
(every `random.random()` draw lies in `[0, 1)`, hence every send is
suppressed) and consequently no acknowledgment ever arrives,
`send_with_retries` performs exactly `MAX_RETRIES` attempts (one per entry
of its attempt-environment list) for the current chunk, transmits nothing,
and reports failure; the sender main loop then attempts no later chunk, so
only chunk 0 is ever built or sent.  In general (last conjunct) at most
one attempted chunk can fail, and it is the last one: the count of
attempted chunks never exceeds the count of confirmed chunks plus one. -/
theorem sender_all_lost_bounded (lossProb : ℚ) (timeout : Nat)
    (cenv : Nat → List AttemptEnv) (c : List Nat) (rest : List (List Nat))
    (hc : c.length = 31) (hp : lossProb = 1)
    (hd : ∀ e ∈ cenv 0, e.draw < 1) (ha : ∀ e ∈ cenv 0, e.acks = []) :
    tx_main lossProb timeout cenv (c :: rest) =
      some ⟨1, 0, [], [0], [(cenv 0).length]⟩
    ∧ ∀ (lp : ℚ) (tmo : Nat) (ce : Nat → List AttemptEnv)
        (chs : List (List Nat)) (pckNum idx : Nat) (r : TxResult),
        tx_loop lp tmo ce chs pckNum idx = some r →
        r.success_chunks ≤ r.sent_chunks
        ∧ r.sent_chunks ≤ r.success_chunks + 1 := by
  constructor
  · have hmk : make_packet ((0 : Nat) : Int) c = Except.ok (0 :: c) := by
      simp [make_packet, DATA_BYTES, hc]
    rw [tx_main, tx_loop, hmk]
    dsimp only
    rw [send_with_retries_all_lost lossProb timeout 0 (0 :: c) (cenv 0) hp hd ha]
    simp
  · intro lp tmo ce chs
    induction chs with
    | nil =>
      intro pckNum idx r h
      rw [tx_loop] at h
      cases h
      simp
    | cons ch chrest ih =>
      intro pckNum idx r h
      rw [tx_loop] at h
      cases hmk : make_packet ((pckNum : Nat) : Int) ch with
      | error e => rw [hmk] at h; cases h
      | ok pck =>
        rw [hmk] at h
        dsimp only at h
        by_cases hs : (send_with_retries lp tmo pckNum pck (ce idx)).1 = true
        · rw [if_pos hs] at h
          cases ht : tx_loop lp tmo ce chrest (pckNum ^^^ 1) (idx + 1) with
          | none => rw [ht] at h; cases h
          | some t =>
            rw [ht] at h
            cases h
            have := ih (pckNum ^^^ 1) (idx + 1) t ht
            simp only []
            omega
        · rw [if_neg hs] at h
          cases h
          simp

theorem sender_all_lost_bounded_witness :
    tx_main 1 9 (fun _ => [⟨0, []⟩, ⟨0, []⟩, ⟨0, []⟩]) [List.replicate 31 2] =
      some ⟨1, 0, [], [0], [3]⟩ :=
  (sender_all_lost_bounded 1 9 (fun _ => [⟨0, []⟩, ⟨0, []⟩, ⟨0, []⟩])
    (List.replicate 31 2) [] (by decide) rfl (by decide) (by decide)).1

theorem wait_for_ack_stale_head (timeout expected w p s : Nat)
    (acks : List AckEvent) (hw : w < timeout) (hp : p ≠ expected % 256) :
    (wait_for_ack timeout expected ((w, [p, s]) :: acks)).1
        = (wait_for_ack timeout expected acks).1
    ∧ (wait_for_ack timeout expected ((w, [p, s]) :: acks)).2
        = w + (wait_for_ack timeout expected acks).2 := by
  rw [wait_for_ack, if_neg (by omega)]
  dsimp only
  rw [if_neg hp]
  exact ⟨rfl, rfl⟩

theorem send_with_retries_stale_insensitive (lossProb : ℚ) (timeout pckNum : Nat)
    (pck : List Nat) (d : ℚ) (acks : List AckEvent) (w p s : Nat)
    (pre post : List AttemptEnv)
    (hw : w < timeout) (hp : p ≠ pckNum % 256) :
    send_with_retries lossProb timeout pckNum pck
        (pre ++ ⟨d, (w, [p, s]) :: acks⟩ :: post)
      = send_with_retries lossProb timeout pckNum pck (pre ++ ⟨d, acks⟩ :: post) := by
  induction pre with
  | nil =>
    rw [List.nil_append, List.nil_append, send_with_retries, send_with_retries]
    dsimp only
    rw [(wait_for_ack_stale_head timeout pckNum w p s acks hw hp).1]
  | cons e pre ih =>
    rw [List.cons_append, List.cons_append, send_with_retries, send_with_retries]
    simp only [ih]

/-- Claim C3 (amended): during one send attempt, an inbound Ack whose
echoed sequence number differs from the sequence number just sent is
ignored by `wait_for_ack` — the resulting status is as if it had never
arrived — and it does not consume a retry attempt: `send_with_retries`
returns the same outcome, attempt count and transmissions whether or not
the stale Ack is present in any attempt's inbound events.  However,
because the socket timeout set by `settimeout` governs each `recvfrom`
call separately, every received datagram restarts the timeout clock: the
attempt's waiting time grows by the stale Ack's arrival delay instead of
being bounded by the single RTT timeout started at the beginning of the
attempt. -/
theorem stale_ack_ignored (lossProb : ℚ) (timeout pckNum w p s : Nat)
    (acks : List AckEvent) (pck : List Nat) (d : ℚ) (pre post : List AttemptEnv)
    (hw : w < timeout) (hp : p ≠ pckNum % 256) :
    (wait_for_ack timeout pckNum ((w, [p, s]) :: acks)).1
        = (wait_for_ack timeout pckNum acks).1
    ∧ (wait_for_ack timeout pckNum ((w, [p, s]) :: acks)).2
        = w + (wait_for_ack timeout pckNum acks).2
    ∧ send_with_retries lossProb timeout pckNum pck
          (pre ++ ⟨d, (w, [p, s]) :: acks⟩ :: post)
        = send_with_retries lossProb timeout pckNum pck (pre ++ ⟨d, acks⟩ :: post) :=
  ⟨(wait_for_ack_stale_head timeout pckNum w p s acks hw hp).1,
   (wait_for_ack_stale_head timeout pckNum w p s acks hw hp).2,
   send_with_retries_stale_insensitive lossProb timeout pckNum pck d acks w p s
     pre post hw hp⟩

theorem stale_ack_ignored_witness :
    (wait_for_ack 1000 0 [(5, [1, 0])]).1 = (wait_for_ack 1000 0 []).1
    ∧ (wait_for_ack 1000 0 [(5, [1, 0])]).2 = 5 + (wait_for_ack 1000 0 []).2
    ∧ send_with_retries 0 1000 0 [] [⟨0, [(5, [1, 0])]⟩]
        = send_with_retries 0 1000 0 [] [⟨0, []⟩] :=
  stale_ack_ignored 0 1000 0 5 1 0 [] [] 0 [] [] (by decide) (by decide)

/-- Claim C3 as stated is false on the code: with the RTT timeout set to
1000 ms and two mismatched Acks each arriving 999 ms after the preceding
`recvfrom` call began, the attempt only fails 2998 ms after it started —
each inbound datagram restarts the timeout clock, so the attempt does not
fail when the single RTT timeout started at the beginning of the attempt
expires. -/
theorem stale_ack_resets_timeout_cex :
    wait_for_ack 1000 0 [(999, [1, 0]), (999, [1, 0])] = (none, 2998)
    ∧ 1000 < 2998 := by
  exact ⟨by decide, by decide⟩

theorem tx_loop_seqs (lossProb : ℚ) (timeout : Nat) (cenv : Nat → List AttemptEnv) :
    ∀ (chunks : List (List Nat)) (b idx : Nat) (r : TxResult), b < 2 →
      tx_loop lossProb timeout cenv chunks b idx = some r →
      r.attempted_seqs = (List.range r.sent_chunks).map (fun i => (b + i) % 2) := by
  intro chunks
  induction chunks with
  | nil =>
    intro b idx r hb h
    rw [tx_loop] at h
    cases h
    rfl
  | cons ch chrest ih =>
    intro b idx r hb h
    rw [tx_loop] at h
    cases hmk : make_packet ((b : Nat) : Int) ch with
    | error e => rw [hmk] at h; cases h
    | ok pck =>
      rw [hmk] at h
      dsimp only at h
      by_cases hs : (send_with_retries lossProb timeout b pck (cenv idx)).1 = true
      · rw [if_pos hs] at h
        cases ht : tx_loop lossProb timeout cenv chrest (b ^^^ 1) (idx + 1) with
        | none => rw [ht] at h; cases h
        | some t =>
          rw [ht] at h
          cases h
          have hxor : b ^^^ 1 = (b + 1) % 2 := by
            interval_cases b
            · rw [Nat.zero_xor]
            · rw [Nat.xor_self]
          have hb1 : b ^^^ 1 < 2 := by rw [hxor]; omega
          have ht2 := ih (b ^^^ 1) (idx + 1) t hb1 ht
          dsimp only
          rw [ht2, hxor, List.range_succ_eq_map, List.map_cons, List.map_map]
          congr 1
          · omega
          · apply List.map_congr_left
            intro i _
            simp only [Function.comp_apply]
            omega
      · rw [if_neg hs] at h
        cases h
        dsimp only
        rw [List.range_succ_eq_map, List.range_zero, List.map_cons]
        simp
        omega

/-- Claim C7: the sender sequence number starts at 0 and flips between 0
and 1 only on a confirmed chunk success (a matching OK or DUPLICATE Ack),
and a failed chunk aborts the loop, so the sequence numbers attached to
the successive attempted (hence to the successive delivered) chunks
alternate strictly 0,1,0,1,… -/
theorem sender_seq_alternation (lossProb : ℚ) (timeout : Nat)
    (cenv : Nat → List AttemptEnv) (chunks : List (List Nat)) (r : TxResult)
    (h : tx_main lossProb timeout cenv chunks = some r) :
    r.attempted_seqs = (List.range r.sent_chunks).map (fun i => i % 2) := by
  have hx := tx_loop_seqs lossProb timeout cenv chunks 0 0 r (by norm_num) h
  simpa using hx

theorem sender_seq_alternation_witness :
    (⟨2, 2, [(0, 0 :: List.replicate 31 9), (1, 1 :: List.replicate 31 8)],
      [0, 1], [1, 1]⟩ : TxResult).attempted_seqs =
      (List.range (⟨2, 2, [(0, 0 :: List.replicate 31 9), (1, 1 :: List.replicate 31 8)],
        [0, 1], [1, 1]⟩ : TxResult).sent_chunks).map (fun i => i % 2) :=
  sender_seq_alternation 0 5 (fun i => [⟨1, [(0, [i % 2, 0])]⟩])
    [List.replicate 31 9, List.replicate 31 8] _ (by
      norm_num [tx_main, tx_loop, send_with_retries, wait_for_ack, make_packet,
        DATA_BYTES, Nat.zero_xor])

/-- Receiver-side `TransferSession` state of `rx.main`, together with the
loop-local `done` flag (initialised `False` before the loop and only
reassigned in the new-data branch, so it persists across iterations). -/
structure RxState where
  last_delivered : Option Nat
  expected_total_len : Option Nat
  bytes_written : Nat
  out : List Nat
  done : Bool
deriving Repr, DecidableEq

/-- Receiver state before any datagram is processed. -/
def rx_init : RxState := ⟨none, none, 0, [], false⟩

/-- `struct.unpack("<I", b)[0]` on (at least) four little-endian bytes. -/
def structUnpackLE32 : List Nat → Nat
  | b0 :: b1 :: b2 :: b3 :: _ => b0 + 256 * b1 + 65536 * b2 + 16777216 * b3
  | _ => 0

/-- Result of processing one inbound datagram in `rx.main`: the successor
state, the 2-byte acknowledgment that was built, whether it was actually
transmitted (`sent`, the complement of the ack-loss draw), and whether the
receive loop breaks afterwards (`done and not ack_dropped`). -/
structure RxStep where
  state : RxState
  ack : List Nat
  sent : Bool
  brk : Bool
deriving Repr, DecidableEq

/-- The new-data branch of `rx.main` (status `OK`): on the first accepted
packet decode the leading 4 payload bytes as the total length and treat
the remaining 27 bytes as candidate data, otherwise treat all 31 payload
bytes as candidate data; write only `max(0, total - bytes_written)` of
them (`Nat` subtraction is exactly Python's `max(0, ·-·)`), record the
sequence number as last delivered, then recompute `done`. -/
def rx_accept (s : RxState) (pckNum : Nat) (data : List Nat) : RxState :=
  let s1 : RxState :=
    match s.expected_total_len with
    | none =>
      let total := structUnpackLE32 (data.take 4)
      let to_write := (data.drop 4).take (total - s.bytes_written)
      ⟨some pckNum, some total, s.bytes_written + to_write.length,
        s.out ++ to_write, s.done⟩
    | some total =>
      let to_write := data.take (total - s.bytes_written)
      ⟨some pckNum, some total, s.bytes_written + to_write.length,
        s.out ++ to_write, s.done⟩
  { s1 with
      done := match s1.expected_total_len with
              | some total => decide (total ≤ s1.bytes_written)
              | none => false }

/-- One iteration of the `while True` loop of `rx.main` on the inbound
datagram `pck`.  `ackDrop` is the outcome of the per-datagram comparison
`random.random() < LOSS_ACK_PROB` (the malformed branch tests the exact
complement `>=` for sending). -/
def rx_process (s : RxState) (pck : List Nat) (ackDrop : Bool) : RxStep :=
  if pck.length ≠ DATA_PCK_LEN then
    ⟨s, [pck.headD 0 % 256, 2], !ackDrop, false⟩
  else
    let pckNum := pck.headD 0
    if s.last_delivered = some pckNum then
      ⟨s, [pckNum % 256, 1], !ackDrop, s.done && !ackDrop⟩
    else
      let s2 := rx_accept s pckNum pck.tail
      ⟨s2, [pckNum % 256, 0], !ackDrop, s2.done && !ackDrop⟩

/-- The receive loop of `rx.main` over a list of (datagram, ack-loss draw)
inputs, stopping at the first iteration that breaks. -/
def rx_run (s : RxState) : List (List Nat × Bool) → RxState
  | [] => s
  | (p, dr) :: rest =>
    let st := rx_process s p dr
    if st.brk then st.state else rx_run st.state rest

/-- Invariant maintained by every reachable receiver state. -/
def RxInv (s : RxState) : Prop :=
  (s.expected_total_len = none → s.bytes_written = 0 ∧ s.out = [] ∧ s.done = false)
  ∧ (∀ t, s.expected_total_len = some t → s.bytes_written ≤ t)
  ∧ (s.done = true → ∃ t, s.expected_total_len = some t ∧ t ≤ s.bytes_written)

theorem rx_inv_init : RxInv rx_init := by
  refine ⟨fun _ => ⟨rfl, rfl, rfl⟩, ?_, ?_⟩ <;> simp [rx_init]

theorem rx_accept_inv (s : RxState) (pckNum : Nat) (data : List Nat) (h : RxInv s) :
    RxInv (rx_accept s pckNum data) := by
  rw [rx_accept]
  cases he : s.expected_total_len with
  | none =>
    have hz := (h.1 he).1
    dsimp only
    refine ⟨by simp, ?_, ?_⟩
    · intro t ht
      have htw : ((data.drop 4).take (structUnpackLE32 (data.take 4) - s.bytes_written)).length
          ≤ structUnpackLE32 (data.take 4) - s.bytes_written := by
        rw [List.length_take]
        exact Nat.min_le_left _ _
      simp only [Option.some_inj] at ht
      dsimp only
      omega
    · intro hd
      simp only [decide_eq_true_eq] at hd
      exact ⟨structUnpackLE32 (data.take 4), rfl, hd⟩
  | some total =>
    have hle := h.2.1 total he
    dsimp only
    refine ⟨by simp, ?_, ?_⟩
    · intro t ht
      have htw : (data.take (total - s.bytes_written)).length
          ≤ total - s.bytes_written := by
        rw [List.length_take]
        exact Nat.min_le_left _ _
      simp only [Option.some_inj] at ht
      dsimp only
      omega
    · intro hd
      simp only [decide_eq_true_eq] at hd
      exact ⟨total, rfl, hd⟩

theorem rx_process_inv (s : RxState) (p : List Nat) (dr : Bool) (h : RxInv s) :
    RxInv (rx_process s p dr).state := by
  rw [rx_process]
  split
  · exact h
  · dsimp only
    split
    · exact h
    · exact rx_accept_inv s (p.headD 0) p.tail h

theorem rx_run_inv (ins : List (List Nat × Bool)) (s : RxState) (h : RxInv s) :
    RxInv (rx_run s ins) := by
  induction ins generalizing s with
  | nil => exact h
  | cons e rest ih =>
    obtain ⟨p, dr⟩ := e
    rw [rx_run]
    split
    · exact rx_process_inv s p dr h
    · exact ih (rx_process s p dr).state (rx_process_inv s p dr h)

theorem rx_accept_expected (s : RxState) (pckNum : Nat) (data : List Nat) (t : Nat)
    (h : s.expected_total_len = some t) :
    (rx_accept s pckNum data).expected_total_len = some t := by
  rw [rx_accept, h]

theorem rx_process_expected (s : RxState) (p : List Nat) (dr : Bool) (t : Nat)
    (h : s.expected_total_len = some t) :
    (rx_process s p dr).state.expected_total_len = some t := by
  rw [rx_process]
  split
  · exact h
  · dsimp only
    split
    · exact h
    · exact rx_accept_expected s (p.headD 0) p.tail t h

theorem rx_run_expected (ins : List (List Nat × Bool)) (s : RxState) (t : Nat)
    (h : s.expected_total_len = some t) :
    (rx_run s ins).expected_total_len = some t := by
  induction ins generalizing s with
  | nil => exact h
  | cons e rest ih =>
    obtain ⟨p, dr⟩ := e
    rw [rx_run]
    split
    · exact rx_process_expected s p dr t h
    · exact ih (rx_process s p dr).state (rx_process_expected s p dr t h)

theorem rx_process_dup_eq (s : RxState) (pck : List Nat) (dr : Bool)
    (hlen : pck.length = 32) (hdup : s.last_delivered = some (pck.headD 0)) :
    rx_process s pck dr =
      ⟨s, [pck.headD 0 % 256, 1], !dr, s.done && !dr⟩ := by
  rw [rx_process, if_neg (by simp [DATA_PCK_LEN, hlen])]
  dsimp only
  rw [if_pos hdup]

/-- Claim C4: in any receiver state in which some packet has already been
accepted, processing a 32-byte data packet whose sequence number equals
the last-delivered sequence number changes nothing — in particular
neither `bytes_written` nor the reconstructed output — and produces an
acknowledgment carrying status `DUPLICATE` (1) and that same sequence
number. -/
theorem duplicate_idempotent (s : RxState) (pck : List Nat) (dr : Bool) (n : Nat)
    (hacc : s.last_delivered = some n) (hlen : pck.length = 32)
    (hseq : pck.headD 0 = n) (hb : n < 256) :
    (rx_process s pck dr).state = s
    ∧ (rx_process s pck dr).state.bytes_written = s.bytes_written
    ∧ (rx_process s pck dr).state.out = s.out
    ∧ (rx_process s pck dr).ack = [n, 1] := by
  have he := rx_process_dup_eq s pck dr hlen (by rw [hseq]; exact hacc)
  rw [he]
  refine ⟨rfl, rfl, rfl, ?_⟩
  dsimp only
  rw [hseq, Nat.mod_eq_of_lt hb]

theorem duplicate_idempotent_witness :
    (rx_process ⟨some 3, some 10, 4, [9, 9, 9, 9], false⟩
        (3 :: List.replicate 31 0) false).state = ⟨some 3, some 10, 4, [9, 9, 9, 9], false⟩
    ∧ (rx_process ⟨some 3, some 10, 4, [9, 9, 9, 9], false⟩
        (3 :: List.replicate 31 0) false).state.bytes_written =
        (⟨some 3, some 10, 4, [9, 9, 9, 9], false⟩ : RxState).bytes_written
    ∧ (rx_process ⟨some 3, some 10, 4, [9, 9, 9, 9], false⟩
        (3 :: List.replicate 31 0) false).state.out =
        (⟨some 3, some 10, 4, [9, 9, 9, 9], false⟩ : RxState).out
    ∧ (rx_process ⟨some 3, some 10, 4, [9, 9, 9, 9], false⟩
        (3 :: List.replicate 31 0) false).ack = [3, 1] :=
  duplicate_idempotent ⟨some 3, some 10, 4, [9, 9, 9, 9], false⟩
    (3 :: List.replicate 31 0) false 3 (by decide) (by decide) (by decide) (by decide)

/-- Claim C5: a datagram whose length is not exactly 32 bytes never
mutates the `TransferSession` state, regardless of its content, and never
terminates the receive loop; the receiver builds a diagnostic
acknowledgment with status `BAD_LENGTH` (2) whose echoed sequence number
is the datagram's first byte when it has one and 0 otherwise
(`pck.headD 0`), transmitted exactly when the ack-direction loss draw
does not suppress it. -/
theorem malformed_no_mutation (s : RxState) (pck : List Nat) (dr : Bool)
    (h : pck.length ≠ 32) :
    (rx_process s pck dr).state = s
    ∧ (rx_process s pck dr).brk = false
    ∧ (rx_process s pck dr).sent = !dr
    ∧ (pck.headD 0 < 256 → (rx_process s pck dr).ack = [pck.headD 0, 2]) := by
  have he : rx_process s pck dr = ⟨s, [pck.headD 0 % 256, 2], !dr, false⟩ := by
    rw [rx_process, if_pos (by simp [DATA_PCK_LEN, h])]
  rw [he]
  exact ⟨rfl, rfl, rfl, fun hb => by dsimp only; rw [Nat.mod_eq_of_lt hb]⟩

theorem malformed_no_mutation_witness :
    (rx_process ⟨some 0, some 7, 7, List.replicate 7 5, true⟩ [200, 1, 2] false).state =
        ⟨some 0, some 7, 7, List.replicate 7 5, true⟩
    ∧ (rx_process ⟨some 0, some 7, 7, List.replicate 7 5, true⟩ [200, 1, 2] false).brk = false
    ∧ (rx_process ⟨some 0, some 7, 7, List.replicate 7 5, true⟩ [200, 1, 2] false).sent = !false
    ∧ (([200, 1, 2] : List Nat).headD 0 < 256 →
        (rx_process ⟨some 0, some 7, 7, List.replicate 7 5, true⟩ [200, 1, 2] false).ack =
          [([200, 1, 2] : List Nat).headD 0, 2]) :=
  malformed_no_mutation ⟨some 0, some 7, 7, List.replicate 7 5, true⟩ [200, 1, 2] false
    (by decide)

/-- Claim C6: in every reachable receiver state, `bytes_written` never
exceeds the expected total length once that length is known, and once the
expected total length has been set by the first accepted packet no later
processing step changes it. -/
theorem receiver_length_invariant (ins more : List (List Nat × Bool)) (t : Nat)
    (h : (rx_run rx_init ins).expected_total_len = some t) :
    (rx_run rx_init ins).bytes_written ≤ t
    ∧ (rx_run (rx_run rx_init ins) more).expected_total_len = some t :=
  ⟨(rx_run_inv ins rx_init rx_inv_init).2.1 t h,
   rx_run_expected more (rx_run rx_init ins) t h⟩

theorem receiver_length_invariant_witness :
    (rx_run rx_init [(0 :: 5 :: 0 :: 0 :: 0 :: List.replicate 27 1, false)]).bytes_written ≤ 5
    ∧ (rx_run (rx_run rx_init [(0 :: 5 :: 0 :: 0 :: 0 :: List.replicate 27 1, false)])
        [([1, 2], true), (0 :: 5 :: 0 :: 0 :: 0 :: List.replicate 27 1, true)]).expected_total_len
        = some 5 :=
  receiver_length_invariant [(0 :: 5 :: 0 :: 0 :: 0 :: List.replicate 27 1, false)]
    [([1, 2], true), (0 :: 5 :: 0 :: 0 :: 0 :: List.replicate 27 1, true)] 5 (by decide)

theorem rx_process_brk_complete (s : RxState) (p : List Nat) (d : Bool)
    (hinv : RxInv s) (hbrk : (rx_process s p d).brk = true) :
    (rx_process s p d).sent = true
    ∧ (∃ t, (rx_process s p d).state.expected_total_len = some t
        ∧ t ≤ (rx_process s p d).state.bytes_written)
    ∧ (∃ q, (rx_process s p d).ack = [q, 0] ∨ (rx_process s p d).ack = [q, 1]) := by
  by_cases hlen : p.length ≠ DATA_PCK_LEN
  · rw [rx_process, if_pos hlen] at hbrk
    cases hbrk
  · rw [rx_process, if_neg hlen] at hbrk ⊢
    dsimp only at hbrk ⊢
    by_cases hdup : s.last_delivered = some (p.headD 0)
    · rw [if_pos hdup] at hbrk ⊢
      dsimp only at hbrk ⊢
      rw [Bool.and_eq_true] at hbrk
      obtain ⟨t, he, hle⟩ := hinv.2.2 hbrk.1
      exact ⟨hbrk.2, ⟨t, he, hle⟩, ⟨p.headD 0 % 256, Or.inr rfl⟩⟩
    · rw [if_neg hdup] at hbrk ⊢
      dsimp only at hbrk ⊢
      rw [Bool.and_eq_true] at hbrk
      obtain ⟨t, he, hle⟩ := (rx_accept_inv s (p.headD 0) p.tail hinv).2.2 hbrk.1
      exact ⟨hbrk.2, ⟨t, he, hle⟩, ⟨p.headD 0 % 256, Or.inl rfl⟩⟩

/-- Claim C8: an iteration of the receive loop breaks only when the
transfer data is complete (`bytes_written` has reached the expected total
length) and an `OK` or `DUPLICATE` acknowledgment for the completing
packet was actually transmitted rather than suppressed by the loss
policy; and if the completing iteration's acknowledgment is
simulated-dropped the loop does not break, and a retransmission of the
completing packet is answered with a `DUPLICATE` acknowledgment attempt,
the loop breaking exactly when that attempt is not dropped. -/
theorem receiver_terminates_only_complete (ins : List (List Nat × Bool))
    (p : List Nat) (d : Bool) (st : RxStep)
    (hst : st = rx_process (rx_run rx_init ins) p d) :
    (st.brk = true →
      st.sent = true
      ∧ (∃ t, st.state.expected_total_len = some t ∧ t ≤ st.state.bytes_written)
      ∧ (∃ q, st.ack = [q, 0] ∨ st.ack = [q, 1]))
    ∧ ∀ (p2 : List Nat) (d2 : Bool) (b : Nat),
        st.state.done = true → st.brk = false →
        p2.length = 32 → p2.headD 0 = b → st.state.last_delivered = some b →
        b < 256 →
        (rx_process st.state p2 d2).ack = [b, 1]
        ∧ (rx_process st.state p2 d2).brk = !d2 := by
  subst hst
  constructor
  · intro hbrk
    exact rx_process_brk_complete _ p d (rx_run_inv ins rx_init rx_inv_init) hbrk
  · intro p2 d2 b hdone hbrk hlen2 hseq2 hlast hb
    have he := rx_process_dup_eq _ p2 d2 hlen2 (by rw [hseq2]; exact hlast)
    rw [he]
    constructor
    · dsimp only
      rw [hseq2, Nat.mod_eq_of_lt hb]
    · dsimp only
      rw [hdone]
      simp

theorem receiver_terminates_only_complete_witness :
    ((rx_process (rx_process (rx_run rx_init [])
          (0 :: 1 :: 0 :: 0 :: 0 :: List.replicate 27 9) true).state
        (0 :: 1 :: 0 :: 0 :: 0 :: List.replicate 27 9) false).ack = [0, 1]
      ∧ (rx_process (rx_process (rx_run rx_init [])
          (0 :: 1 :: 0 :: 0 :: 0 :: List.replicate 27 9) true).state
        (0 :: 1 :: 0 :: 0 :: 0 :: List.replicate 27 9) false).brk = !false)
    ∧ (rx_process (rx_run rx_init [])
        (0 :: 1 :: 0 :: 0 :: 0 :: List.replicate 27 9) false).sent = true := by
  constructor
  · exact (receiver_terminates_only_complete []
      (0 :: 1 :: 0 :: 0 :: 0 :: List.replicate 27 9) true _ rfl).2
      (0 :: 1 :: 0 :: 0 :: 0 :: List.replicate 27 9) false 0
      (by decide) (by decide) (by decide) (by decide) (by decide) (by decide)
  · exact ((receiver_terminates_only_complete []
      (0 :: 1 :: 0 :: 0 :: 0 :: List.replicate 27 9) false _ rfl).1 (by decide)).1

/-- A deterministically seeded pseudo-random generator: `random.seed(s)`
fixes the entire future draw stream, and `pos` counts how many draws have
been consumed so far. -/
structure Rng where
  stream : Nat → ℚ
  pos : Nat

/-- The per-acknowledgment channel decision taken by the receiver: either
the acknowledgment is suppressed, or it is sent after the delay selected
by the next draw (`random.randint` inside `random_delay`; the decision
records the raw draw that determines the delay). -/
inductive AckDecision
  | dropped
  | sentAfter (delayDraw : ℚ)

/-- The receive loop of `rx.main` with the random draws made explicit: for
every inbound datagram one draw decides suppression of the acknowledgment
(`random.random() < LOSS_ACK_PROB`; the malformed branch tests the exact
complement) and, when the acknowledgment is sent, one further draw
chooses the delay.  Returns the final state, the per-datagram
drop/deliver decisions, and the total number of draws consumed. -/
def rx_run_rng (lossProb : ℚ) (g : Rng) (s : RxState) :
    List (List Nat) → RxState × List AckDecision × Nat
  | [] => (s, [], g.pos)
  | p :: rest =>
    let dec := if g.stream g.pos < lossProb then AckDecision.dropped
               else AckDecision.sentAfter (g.stream (g.pos + 1))
    let used := if g.stream g.pos < lossProb then 1 else 2
    let st := rx_process s p (decide (g.stream g.pos < lossProb))
    if st.brk then (st.state, [dec], g.pos + used)
    else
      let r := rx_run_rng lossProb ⟨g.stream, g.pos + used⟩ st.state rest
      (r.1, dec :: r.2.1, r.2.2)

theorem rx_run_rng_pos_le (lossProb : ℚ) (ins : List (List Nat)) :
    ∀ (g : Rng) (s : RxState), g.pos ≤ (rx_run_rng lossProb g s ins).2.2 := by
  induction ins with
  | nil => intro g s; exact le_rfl
  | cons p rest ih =>
    intro g s
    rw [rx_run_rng]
    dsimp only
    split
    · dsimp only
      split <;> omega
    · dsimp only
      have := ih ⟨g.stream, g.pos + (if g.stream g.pos < lossProb then 1 else 2)⟩
        (rx_process s p (decide (g.stream g.pos < lossProb))).state
      dsimp only at this
      have h2 : (0 : Nat) < if g.stream g.pos < lossProb then 1 else 2 := by
        split <;> omega
      omega

theorem rx_run_rng_used_le (lossProb : ℚ) (p : List Nat) (rest : List (List Nat))
    (g : Rng) (s : RxState) :
    g.pos + (if g.stream g.pos < lossProb then 1 else 2)
      ≤ (rx_run_rng lossProb g s (p :: rest)).2.2 := by
  rw [rx_run_rng]
  dsimp only
  by_cases hbrk : (rx_process s p (decide (g.stream g.pos < lossProb))).brk = true
  · rw [if_pos hbrk]
  · rw [if_neg hbrk]
    dsimp only
    have := rx_run_rng_pos_le lossProb rest
      ⟨g.stream, g.pos + (if g.stream g.pos < lossProb then 1 else 2)⟩
      (rx_process s p (decide (g.stream g.pos < lossProb))).state
    dsimp only at this
    exact this

theorem rx_run_rng_agree (lossProb : ℚ) (ins : List (List Nat)) :
    ∀ (g g2 : Rng) (s : RxState), g2.pos = g.pos →
      (∀ i, g.pos ≤ i → i < (rx_run_rng lossProb g s ins).2.2 →
        g2.stream i = g.stream i) →
      rx_run_rng lossProb g2 s ins = rx_run_rng lossProb g s ins := by
  induction ins with
  | nil =>
    intro g g2 s hpos _
    rw [rx_run_rng, rx_run_rng, hpos]
  | cons p rest ih =>
    intro g g2 s hpos hag
    have hused := rx_run_rng_used_le lossProb p rest g s
    by_cases hd : g.stream g.pos < lossProb
    · rw [if_pos hd] at hused
      have hq : g2.stream g.pos = g.stream g.pos := hag g.pos le_rfl (by omega)
      rw [rx_run_rng, rx_run_rng]
      dsimp only
      rw [hpos, hq]
      simp only [if_pos hd]
      by_cases hbrk : (rx_process s p (decide (g.stream g.pos < lossProb))).brk = true
      · simp only [if_pos hbrk]
      · simp only [if_neg hbrk]
        have houter : (rx_run_rng lossProb g s (p :: rest)).2.2
            = (rx_run_rng lossProb ⟨g.stream, g.pos + 1⟩
                (rx_process s p (decide (g.stream g.pos < lossProb))).state rest).2.2 := by
          rw [rx_run_rng]
          dsimp only
          simp only [if_pos hd, if_neg hbrk]
        have hagr : ∀ i, (⟨g.stream, g.pos + 1⟩ : Rng).pos ≤ i →
            i < (rx_run_rng lossProb ⟨g.stream, g.pos + 1⟩
                (rx_process s p (decide (g.stream g.pos < lossProb))).state rest).2.2 →
            g2.stream i = g.stream i := by
          intro i hge hlt
          dsimp only at hge
          exact hag i (by omega) (by rw [houter]; exact hlt)
        have hrec := ih ⟨g.stream, g.pos + 1⟩ ⟨g2.stream, g.pos + 1⟩
            (rx_process s p (decide (g.stream g.pos < lossProb))).state rfl hagr
        rw [hrec]
    · rw [if_neg hd] at hused
      have hq : g2.stream g.pos = g.stream g.pos := hag g.pos le_rfl (by omega)
      have hq1 : g2.stream (g.pos + 1) = g.stream (g.pos + 1) :=
        hag (g.pos + 1) (by omega) (by omega)
      rw [rx_run_rng, rx_run_rng]
      dsimp only
      rw [hpos, hq, hq1]
      simp only [if_neg hd]
      by_cases hbrk : (rx_process s p (decide (g.stream g.pos < lossProb))).brk = true
      · simp only [if_pos hbrk]
      · simp only [if_neg hbrk]
        have houter : (rx_run_rng lossProb g s (p :: rest)).2.2
            = (rx_run_rng lossProb ⟨g.stream, g.pos + 2⟩
                (rx_process s p (decide (g.stream g.pos < lossProb))).state rest).2.2 := by
          rw [rx_run_rng]
          dsimp only
          simp only [if_neg hd, if_neg hbrk]
        have hagr : ∀ i, (⟨g.stream, g.pos + 2⟩ : Rng).pos ≤ i →
            i < (rx_run_rng lossProb ⟨g.stream, g.pos + 2⟩
                (rx_process s p (decide (g.stream g.pos < lossProb))).state rest).2.2 →
            g2.stream i = g.stream i := by
          intro i hge hlt
          dsimp only at hge
          exact hag i (by omega) (by rw [houter]; exact hlt)
        have hrec := ih ⟨g.stream, g.pos + 2⟩ ⟨g2.stream, g.pos + 2⟩
            (rx_process s p (decide (g.stream g.pos < lossProb))).state rfl hagr
        rw [hrec]

/-- The per-data-packet channel decision taken by the sender on one send
attempt: either the send is suppressed, or the packet is sent after the
delay selected by the next draw (`random.randint` inside `random_delay`;
the decision records the raw draw that determines the delay). -/
inductive TxDecision
  | dropped
  | sentAfter (delayDraw : ℚ)
deriving Repr, DecidableEq

/-- `tx.send_with_retries` with the random draws made explicit: one list
entry per permitted attempt with that attempt's inbound acknowledgment
events.  Each attempt consumes one draw for the loss decision
(`random.random() < LOSS_DATA_PROB`) and, when the send is not
suppressed, one further draw for the delay; the draws never depend on the
packet bytes.  Returns the success flag, the per-attempt decisions, and
the stream position after the last consumed draw. -/
def send_with_retries_rng (lossProb : ℚ) (timeout pckNum : Nat) (g : Rng) :
    List (List AckEvent) → Bool × List TxDecision × Nat
  | [] => (false, [], g.pos)
  | acks :: rest =>
    let dec := if g.stream g.pos < lossProb then TxDecision.dropped
               else TxDecision.sentAfter (g.stream (g.pos + 1))
    let used := if g.stream g.pos < lossProb then 1 else 2
    match (wait_for_ack timeout pckNum acks).1 with
    | none =>
      let r := send_with_retries_rng lossProb timeout pckNum ⟨g.stream, g.pos + used⟩ rest
      (r.1, dec :: r.2.1, r.2.2)
    | some s =>
      if s = 0 ∨ s = 1 then (true, [dec], g.pos + used)
      else
        let r := send_with_retries_rng lossProb timeout pckNum ⟨g.stream, g.pos + used⟩ rest
        (r.1, dec :: r.2.1, r.2.2)

/-- The `for data_chunk in data_for_file(...)` loop of `tx.main` with the
random draws made explicit, threading one seeded generator through the
successive chunks exactly as the single `random.seed(args.seed)` stream
is consumed; `aenv idx` supplies the per-attempt inbound acknowledgment
events for the chunk at position `idx`, and a `none` result models an
uncaught `ValueError` from `make_packet`.  Returns the per-attempt
drop/deliver decisions in order, the number of successfully delivered
chunks, and the stream position after the last consumed draw. -/
def tx_run_rng (lossProb : ℚ) (timeout : Nat) (aenv : Nat → List (List AckEvent)) :
    List (List Nat) → Nat → Nat → Rng → Option (List TxDecision × Nat × Nat)
  | [], _, _, g => some ([], 0, g.pos)
  | c :: rest, pckNum, idx, g =>
    match make_packet (pckNum : Int) c with
    | Except.error _ => none
    | Except.ok _ =>
      let r := send_with_retries_rng lossProb timeout pckNum g (aenv idx)
      if r.1 then
        match tx_run_rng lossProb timeout aenv rest (pckNum ^^^ 1) (idx + 1)
            ⟨g.stream, r.2.2⟩ with
        | none => none
        | some t => some (r.2.1 ++ t.1, t.2.1 + 1, t.2.2)
      else
        some (r.2.1, 0, r.2.2)

theorem send_rng_pos_le (lossProb : ℚ) (timeout pckNum : Nat)
    (traces : List (List AckEvent)) :
    ∀ g : Rng, g.pos ≤ (send_with_retries_rng lossProb timeout pckNum g traces).2.2 := by
  induction traces with
  | nil => intro g; exact le_rfl
  | cons acks rest ih =>
    intro g
    rw [send_with_retries_rng]
    dsimp only
    have h2 : (0 : Nat) < if g.stream g.pos < lossProb then 1 else 2 := by
      split <;> omega
    cases hw : (wait_for_ack timeout pckNum acks).1 with
    | none =>
      dsimp only
      have := ih ⟨g.stream, g.pos + (if g.stream g.pos < lossProb then 1 else 2)⟩
      dsimp only at this
      omega
    | some s =>
      dsimp only
      split
      · dsimp only
        omega
      · dsimp only
        have := ih ⟨g.stream, g.pos + (if g.stream g.pos < lossProb then 1 else 2)⟩
        dsimp only at this
        omega

theorem send_rng_used_le (lossProb : ℚ) (timeout pckNum : Nat) (acks : List AckEvent)
    (rest : List (List AckEvent)) (g : Rng) :
    g.pos + (if g.stream g.pos < lossProb then 1 else 2)
      ≤ (send_with_retries_rng lossProb timeout pckNum g (acks :: rest)).2.2 := by
  rw [send_with_retries_rng]
  dsimp only
  cases hw : (wait_for_ack timeout pckNum acks).1 with
  | none =>
    dsimp only
    have := send_rng_pos_le lossProb timeout pckNum rest
      ⟨g.stream, g.pos + (if g.stream g.pos < lossProb then 1 else 2)⟩
    dsimp only at this
    exact this
  | some s =>
    dsimp only
    by_cases hs : s = 0 ∨ s = 1
    · rw [if_pos hs]
    · rw [if_neg hs]
      dsimp only
      have := send_rng_pos_le lossProb timeout pckNum rest
        ⟨g.stream, g.pos + (if g.stream g.pos < lossProb then 1 else 2)⟩
      dsimp only at this
      exact this

theorem send_rng_agree (lossProb : ℚ) (timeout pckNum : Nat)
    (traces : List (List AckEvent)) :
    ∀ g g2 : Rng, g2.pos = g.pos →
      (∀ i, g.pos ≤ i →
        i < (send_with_retries_rng lossProb timeout pckNum g traces).2.2 →
        g2.stream i = g.stream i) →
      send_with_retries_rng lossProb timeout pckNum g2 traces
        = send_with_retries_rng lossProb timeout pckNum g traces := by
  induction traces with
  | nil =>
    intro g g2 hpos _
    rw [send_with_retries_rng, send_with_retries_rng, hpos]
  | cons acks rest ih =>
    intro g g2 hpos hag
    have hused := send_rng_used_le lossProb timeout pckNum acks rest g
    by_cases hd : g.stream g.pos < lossProb
    · rw [if_pos hd] at hused
      have hq : g2.stream g.pos = g.stream g.pos := hag g.pos le_rfl (by omega)
      rw [send_with_retries_rng, send_with_retries_rng]
      dsimp only
      rw [hpos, hq]
      simp only [if_pos hd]
      cases hw : (wait_for_ack timeout pckNum acks).1 with
      | none =>
        dsimp only
        have houter : (send_with_retries_rng lossProb timeout pckNum g (acks :: rest)).2.2
            = (send_with_retries_rng lossProb timeout pckNum
                ⟨g.stream, g.pos + 1⟩ rest).2.2 := by
          rw [send_with_retries_rng]
          dsimp only
          rw [hw]
          dsimp only
          simp only [if_pos hd]
        have hagr : ∀ i, (⟨g.stream, g.pos + 1⟩ : Rng).pos ≤ i →
            i < (send_with_retries_rng lossProb timeout pckNum
                ⟨g.stream, g.pos + 1⟩ rest).2.2 →
            g2.stream i = g.stream i := by
          intro i hge hlt
          dsimp only at hge
          exact hag i (by omega) (by rw [houter]; exact hlt)
        have hrec := ih ⟨g.stream, g.pos + 1⟩ ⟨g2.stream, g.pos + 1⟩ rfl hagr
        rw [hrec]
      | some s =>
        dsimp only
        by_cases hs : s = 0 ∨ s = 1
        · simp only [if_pos hs]
        · simp only [if_neg hs]
          have houter : (send_with_retries_rng lossProb timeout pckNum g (acks :: rest)).2.2
              = (send_with_retries_rng lossProb timeout pckNum
                  ⟨g.stream, g.pos + 1⟩ rest).2.2 := by
            rw [send_with_retries_rng]
            dsimp only
            rw [hw]
            dsimp only
            simp only [if_pos hd, if_neg hs]
          have hagr : ∀ i, (⟨g.stream, g.pos + 1⟩ : Rng).pos ≤ i →
              i < (send_with_retries_rng lossProb timeout pckNum
                  ⟨g.stream, g.pos + 1⟩ rest).2.2 →
              g2.stream i = g.stream i := by
            intro i hge hlt
            dsimp only at hge
            exact hag i (by omega) (by rw [houter]; exact hlt)
          have hrec := ih ⟨g.stream, g.pos + 1⟩ ⟨g2.stream, g.pos + 1⟩ rfl hagr
          rw [hrec]
    · rw [if_neg hd] at hused
      have hq : g2.stream g.pos = g.stream g.pos := hag g.pos le_rfl (by omega)
      have hq1 : g2.stream (g.pos + 1) = g.stream (g.pos + 1) :=
        hag (g.pos + 1) (by omega) (by omega)
      rw [send_with_retries_rng, send_with_retries_rng]
      dsimp only
      rw [hpos, hq, hq1]
      simp only [if_neg hd]
      cases hw : (wait_for_ack timeout pckNum acks).1 with
      | none =>
        dsimp only
        have houter : (send_with_retries_rng lossProb timeout pckNum g (acks :: rest)).2.2
            = (send_with_retries_rng lossProb timeout pckNum
                ⟨g.stream, g.pos + 2⟩ rest).2.2 := by
          rw [send_with_retries_rng]
          dsimp only
          rw [hw]
          dsimp only
          simp only [if_neg hd]
        have hagr : ∀ i, (⟨g.stream, g.pos + 2⟩ : Rng).pos ≤ i →
            i < (send_with_retries_rng lossProb timeout pckNum
                ⟨g.stream, g.pos + 2⟩ rest).2.2 →
            g2.stream i = g.stream i := by
          intro i hge hlt
          dsimp only at hge
          exact hag i (by omega) (by rw [houter]; exact hlt)
        have hrec := ih ⟨g.stream, g.pos + 2⟩ ⟨g2.stream, g.pos + 2⟩ rfl hagr
        rw [hrec]
      | some s =>
        dsimp only
        by_cases hs : s = 0 ∨ s = 1
        · simp only [if_pos hs]
        · simp only [if_neg hs]
          have houter : (send_with_retries_rng lossProb timeout pckNum g (acks :: rest)).2.2
              = (send_with_retries_rng lossProb timeout pckNum
                  ⟨g.stream, g.pos + 2⟩ rest).2.2 := by
            rw [send_with_retries_rng]
            dsimp only
            rw [hw]
            dsimp only
            simp only [if_neg hd, if_neg hs]
          have hagr : ∀ i, (⟨g.stream, g.pos + 2⟩ : Rng).pos ≤ i →
              i < (send_with_retries_rng lossProb timeout pckNum
                  ⟨g.stream, g.pos + 2⟩ rest).2.2 →
              g2.stream i = g.stream i := by
            intro i hge hlt
            dsimp only at hge
            exact hag i (by omega) (by rw [houter]; exact hlt)
          have hrec := ih ⟨g.stream, g.pos + 2⟩ ⟨g2.stream, g.pos + 2⟩ rfl hagr
          rw [hrec]

theorem tx_rng_pos_le (lossProb : ℚ) (timeout : Nat)
    (aenv : Nat → List (List AckEvent)) :
    ∀ (chunks : List (List Nat)) (pckNum idx : Nat) (g : Rng)
      (t : List TxDecision × Nat × Nat),
      tx_run_rng lossProb timeout aenv chunks pckNum idx g = some t →
      g.pos ≤ t.2.2 := by
  intro chunks
  induction chunks with
  | nil =>
    intro pckNum idx g t h
    rw [tx_run_rng] at h
    cases h
    exact le_rfl
  | cons c rest ih =>
    intro pckNum idx g t h
    rw [tx_run_rng] at h
    cases hmk : make_packet ((pckNum : Nat) : Int) c with
    | error e => rw [hmk] at h; cases h
    | ok pck =>
      rw [hmk] at h
      dsimp only at h
      have hsend := send_rng_pos_le lossProb timeout pckNum (aenv idx) g
      by_cases hs : (send_with_retries_rng lossProb timeout pckNum g (aenv idx)).1 = true
      · rw [if_pos hs] at h
        cases ht : tx_run_rng lossProb timeout aenv rest (pckNum ^^^ 1) (idx + 1)
            ⟨g.stream, (send_with_retries_rng lossProb timeout pckNum g (aenv idx)).2.2⟩ with
        | none => rw [ht] at h; cases h
        | some t2 =>
          rw [ht] at h
          cases h
          have := ih (pckNum ^^^ 1) (idx + 1)
            ⟨g.stream, (send_with_retries_rng lossProb timeout pckNum g (aenv idx)).2.2⟩
            t2 ht
          dsimp only at this
          dsimp only
          omega
      · rw [if_neg hs] at h
        cases h
        exact hsend

theorem tx_rng_agree (lossProb : ℚ) (timeout : Nat)
    (aenv : Nat → List (List AckEvent)) :
    ∀ (chunks : List (List Nat)) (pckNum idx : Nat) (g g2 : Rng)
      (t : List TxDecision × Nat × Nat),
      g2.pos = g.pos →
      tx_run_rng lossProb timeout aenv chunks pckNum idx g = some t →
      (∀ i, g.pos ≤ i → i < t.2.2 → g2.stream i = g.stream i) →
      tx_run_rng lossProb timeout aenv chunks pckNum idx g2 = some t := by
  intro chunks
  induction chunks with
  | nil =>
    intro pckNum idx g g2 t hpos h hag
    rw [tx_run_rng] at h ⊢
    cases h
    rw [hpos]
  | cons c rest ih =>
    intro pckNum idx g g2 t hpos h hag
    rw [tx_run_rng] at h ⊢
    cases hmk : make_packet ((pckNum : Nat) : Int) c with
    | error e => rw [hmk] at h; cases h
    | ok pck =>
      rw [hmk] at h
      dsimp only at h ⊢
      have hg0 := send_rng_pos_le lossProb timeout pckNum (aenv idx) g
      by_cases hs : (send_with_retries_rng lossProb timeout pckNum g (aenv idx)).1 = true
      · rw [if_pos hs] at h
        cases ht : tx_run_rng lossProb timeout aenv rest (pckNum ^^^ 1) (idx + 1)
            ⟨g.stream, (send_with_retries_rng lossProb timeout pckNum g (aenv idx)).2.2⟩ with
        | none => rw [ht] at h; cases h
        | some t2 =>
          rw [ht] at h
          cases h
          have hposle := tx_rng_pos_le lossProb timeout aenv rest (pckNum ^^^ 1) (idx + 1)
            ⟨g.stream, (send_with_retries_rng lossProb timeout pckNum g (aenv idx)).2.2⟩
            t2 ht
          dsimp only at hposle
          have hsend_eq := send_rng_agree lossProb timeout pckNum (aenv idx) g g2 hpos
            (fun i hge hlt => hag i hge (by dsimp only; omega))
          rw [hsend_eq, if_pos hs]
          have hrec := ih (pckNum ^^^ 1) (idx + 1)
            ⟨g.stream, (send_with_retries_rng lossProb timeout pckNum g (aenv idx)).2.2⟩
            ⟨g2.stream, (send_with_retries_rng lossProb timeout pckNum g (aenv idx)).2.2⟩
            t2 rfl ht
            (by intro i hge hlt
                dsimp only at hge
                exact hag i (by omega) (by dsimp only; omega))
          rw [hrec]
      · rw [if_neg hs] at h
        cases h
        have hsend_eq := send_rng_agree lossProb timeout pckNum (aenv idx) g g2 hpos
          (fun i hge hlt => hag i hge (by dsimp only; omega))
        rw [hsend_eq, if_neg hs]

/-- Claim C9: for a fixed seed (which fixes the whole draw stream), loss
probability and delay bounds, two runs of an endpoint over the same input
produce an identical sequence of drop/deliver decisions (including the
delay draws) and identical final output — for the receiver
(`random.seed` at `rx.main`) an identical final session state, and for
the sender (`random.seed` at `tx.main`) identical per-attempt decisions
and delivered-chunk count.  Every decision is a deterministic function of
the draws made before it, so agreement of the two seeds' streams on the
draws actually consumed suffices. -/
theorem channel_policy_deterministic
    (lossAck : ℚ) (ins : List (List Nat)) (gr gr2 : Rng)
    (hr0 : gr.pos = 0) (hr02 : gr2.pos = 0)
    (hrAgree : ∀ i, i < (rx_run_rng lossAck gr rx_init ins).2.2 →
        gr2.stream i = gr.stream i)
    (lossData : ℚ) (timeout : Nat) (aenv : Nat → List (List AckEvent))
    (chunks : List (List Nat)) (gt gt2 : Rng) (t : List TxDecision × Nat × Nat)
    (ht0 : gt.pos = 0) (ht02 : gt2.pos = 0)
    (htRun : tx_run_rng lossData timeout aenv chunks 0 0 gt = some t)
    (htAgree : ∀ i, i < t.2.2 → gt2.stream i = gt.stream i) :
    rx_run_rng lossAck gr2 rx_init ins = rx_run_rng lossAck gr rx_init ins
    ∧ tx_run_rng lossData timeout aenv chunks 0 0 gt2 = some t :=
  ⟨rx_run_rng_agree lossAck ins gr gr2 rx_init (hr02.trans hr0.symm)
      (fun i _ hlt => hrAgree i hlt),
   tx_rng_agree lossData timeout aenv chunks 0 0 gt gt2 t (ht02.trans ht0.symm)
      htRun (fun i _ hlt => htAgree i hlt)⟩

theorem channel_policy_deterministic_witness :
    rx_run_rng 1 ⟨fun i => if i < 2 then 1 else 0, 0⟩ rx_init [[0]]
      = rx_run_rng 1 ⟨fun _ => 1, 0⟩ rx_init [[0]]
    ∧ tx_run_rng 1 5 (fun _ => [[(0, [0, 0])]]) [List.replicate 31 4] 0 0
        ⟨fun i => if i < 2 then 1 else 0, 0⟩
      = some ([TxDecision.sentAfter 1], 1, 2) := by
  apply channel_policy_deterministic 1 [[0]] ⟨fun _ => 1, 0⟩
    ⟨fun i => if i < 2 then 1 else 0, 0⟩ rfl rfl ?_ 1 5
    (fun _ => [[(0, [0, 0])]]) [List.replicate 31 4] ⟨fun _ => 1, 0⟩
    ⟨fun i => if i < 2 then 1 else 0, 0⟩ ([TxDecision.sentAfter 1], 1, 2) rfl rfl ?_ ?_
  · intro i hi
    have h2 : (rx_run_rng 1 ⟨fun _ => 1, 0⟩ rx_init [[0]]).2.2 = 2 := by
      norm_num [rx_run_rng, rx_process, DATA_PCK_LEN]
    rw [h2] at hi
    simp [hi]
  · norm_num [tx_run_rng, send_with_retries_rng, wait_for_ack, make_packet, DATA_BYTES]
  · intro i hi
    dsimp only at hi
    simp [hi]
